import Mathlib

/-!
Shallow embedding of the core of a peer-to-peer Reversi/Othello client
(rules engine, wire codec, line transport, discovery tie-breaker, session
driver dispatch), together with proofs of the specification's testable
properties.  Each definition is translated from the corresponding Python
function; source file and function names are kept where Lean allows.
-/

namespace Reversi

/-! ### reversi/game/board.py -/

/-- Cell value `EMPTY = "."`. -/
def EMPTY : String := "."

/-- Cell value `BLACK = "B"`. -/
def BLACK : String := "B"

/-- Cell value `WHITE = "W"`. -/
def WHITE : String := "W"

/-- Board dimension `SIZE = 8`. -/
def SIZE : Nat := 8

/-- `opponent(player)`.  The Python function raises `ValueError` on any other
string; we return `""` there (all claims quantify over valid colours). -/
def opponent (player : String) : String :=
  if player = BLACK then WHITE else if player = WHITE then BLACK else ""

/-- `in_bounds(r, c)`:  `0 <= r < SIZE and 0 <= c < SIZE`. -/
def in_bounds (r c : Int) : Bool :=
  0 ≤ r && r < 8 && 0 ≤ c && c < 8

/-- `Board`: wrapper around a grid of cells.  The Python dataclass stores a
tuple-of-tuples and does not itself validate; `Board.initial` and
`Board.from_rows` are the validating constructors. -/
structure Board where
  grid : List (List String)
deriving DecidableEq, Repr

/-- `Board.cell(r, c)`.  Python raises `IndexError` out of bounds; every call
site in the rules engine guards with `in_bounds` first, so the default value
returned here out of bounds is never observable. -/
def Board.cell (b : Board) (r c : Int) : String :=
  (b.grid.getD r.toNat []).getD c.toNat ""

/-- `Board.count(player)`: number of cells equal to `player`. -/
def gridCount (g : List (List String)) (player : String) : Nat :=
  (g.map (fun row => row.count player)).sum

/-- `Board.count(player)` as a method on boards. -/
def Board.count (b : Board) (player : String) : Nat :=
  gridCount b.grid player

/-- `Board.initial()`: all empty except WHITE at (3,3),(4,4) and BLACK at
(3,4),(4,3). -/
def Board.initial : Board :=
  ⟨[[".", ".", ".", ".", ".", ".", ".", "."],
    [".", ".", ".", ".", ".", ".", ".", "."],
    [".", ".", ".", ".", ".", ".", ".", "."],
    [".", ".", ".", "W", "B", ".", ".", "."],
    [".", ".", ".", "B", "W", ".", ".", "."],
    [".", ".", ".", ".", ".", ".", ".", "."],
    [".", ".", ".", ".", ".", ".", ".", "."],
    [".", ".", ".", ".", ".", ".", ".", "."]]⟩

/-- Error values raised by the rules engine: `IllegalMoveError` from
`apply_move`, `ValueError` from `Board.from_rows` (messages elided). -/
inductive RulesError
  | illegalMove
  | valueError
deriving DecidableEq, Repr

instance {ε α : Type} [DecidableEq ε] [DecidableEq α] : DecidableEq (Except ε α) :=
  fun x y =>
    match x, y with
    | .ok a, .ok b => if h : a = b then isTrue (by rw [h]) else isFalse (by simp [h])
    | .error a, .error b => if h : a = b then isTrue (by rw [h]) else isFalse (by simp [h])
    | .ok _, .error _ => isFalse (by simp)
    | .error _, .ok _ => isFalse (by simp)

/-- A cell string accepted by `Board.from_rows`. -/
def validCell (cell : String) : Bool :=
  cell == EMPTY || cell == BLACK || cell == WHITE

/-- `Board.from_rows(rows)`: validates an 8×8 grid of valid cells, raising
`ValueError` otherwise. -/
def Board.from_rows (rows : List (List String)) : Except RulesError Board :=
  if rows.length != SIZE || rows.any (fun r => r.length != SIZE) then
    .error .valueError
  else if rows.any (fun rr => rr.any (fun cell => !validCell cell)) then
    .error .valueError
  else
    .ok ⟨rows⟩

/-- `Board.to_rows()`: the grid as nested lists (a value copy in Python). -/
def Board.to_rows (b : Board) : List (List String) :=
  b.grid

/-- Well-formedness: exactly the property `Board.from_rows` validates. -/
def WFgrid (g : List (List String)) : Prop :=
  g.length = 8 ∧ ∀ row ∈ g, row.length = 8 ∧ ∀ cell ∈ row, validCell cell = true

instance : DecidablePred WFgrid := fun g => by
  unfold WFgrid; infer_instance

/-- A well-formed board: an 8×8 grid of valid cells. -/
def Board.WF (b : Board) : Prop :=
  WFgrid b.grid

instance : DecidablePred Board.WF := fun b => by
  unfold Board.WF; infer_instance

/-! ### reversi/game/rules.py -/

/-- `DIRS`: the eight compass directions, in source order. -/
def DIRS : List (Int × Int) :=
  [(-1, 0), (-1, 1), (0, 1), (1, 1), (1, 0), (1, -1), (0, -1), (-1, -1)]

/-- The while-loop of `_line_flips`: starting at `(rr, cc)` walk in direction
`(dr, dc)`, collecting opponent stones; `some flips` when a `player` stone
closes the bracket, `none` when an empty cell or the board edge is reached
first.  `fuel` bounds the walk; on an 8×8 board the loop runs at most nine
times, so any fuel of at least nine yields the loop's exact behaviour
(fuel 0 is returned as `none`, the ran-off-board result). -/
def lineWalk (b : Board) (player opp : String) (dr dc : Int) :
    Nat → Int → Int → Option (List (Int × Int))
  | 0, _, _ => none
  | fuel + 1, rr, cc =>
    if in_bounds rr cc then
      if b.cell rr cc = opp then
        match lineWalk b player opp dr dc fuel (rr + dr) (cc + dc) with
        | some rest => some ((rr, cc) :: rest)
        | none => none
      else if b.cell rr cc = player then some []
      else none
    else none

/-- `_line_flips(board, player, r, c, dr, dc)`. -/
def _line_flips (b : Board) (player : String) (r c dr dc : Int) : List (Int × Int) :=
  let opp := opponent player
  let rr := r + dr
  let cc := c + dc
  if in_bounds rr cc && b.cell rr cc == opp then
    (lineWalk b player opp dr dc 16 rr cc).getD []
  else []

/-- `flips_for_move(board, player, r, c)`: all stones flipped by playing at
`(r, c)`, or `[]` if the move is illegal. -/
def flips_for_move (b : Board) (player : String) (r c : Int) : List (Int × Int) :=
  if in_bounds r c && b.cell r c == EMPTY then
    (DIRS.map (fun d => _line_flips b player r c d.1 d.2)).flatten
  else []

/-- All coordinates scanned by `valid_moves` (row-major over the board). -/
def coordsAll : List (Int × Int) :=
  ((List.range SIZE).map Int.ofNat).flatMap
    (fun r => ((List.range SIZE).map Int.ofNat).map (fun c => (r, c)))

/-- The candidate set built by `valid_moves`: empty cells adjacent to at
least one opponent stone (the Python set, as a duplicate-free list). -/
def adj_candidates (b : Board) (player : String) : List (Int × Int) :=
  let opp := opponent player
  ((coordsAll.filter (fun rc => b.cell rc.1 rc.2 == opp)).flatMap
    (fun rc => DIRS.filterMap (fun d =>
      let rr := rc.1 + d.1
      let cc := rc.2 + d.2
      if in_bounds rr cc && b.cell rr cc == EMPTY then some (rr, cc) else none))).dedup

/-- Row-major (lexicographic) order on coordinates, as used by `out.sort()`. -/
def moveLe (a b : Int × Int) : Bool :=
  a.1 < b.1 || (a.1 == b.1 && a.2 ≤ b.2)

/-- `valid_moves(board, player)`: legal coordinates, row-major sorted. -/
def valid_moves (b : Board) (player : String) : List (Int × Int) :=
  ((adj_candidates b player).filter
    (fun rc => !(flips_for_move b player rc.1 rc.2).isEmpty)).mergeSort moveLe

/-- `rows[r][c] = v` on a nested-list grid. -/
def updateGrid (rows : List (List String)) (r c : Nat) (v : String) :
    List (List String) :=
  rows.set r ((rows.getD r []).set c v)

/-- `apply_move(board, player, r, c)`: a new board with the move applied, or
`IllegalMoveError` when `flips_for_move` is empty. -/
def apply_move (b : Board) (player : String) (r c : Int) : Except RulesError Board :=
  let flips := flips_for_move b player r c
  if flips.isEmpty then .error .illegalMove
  else
    let rows0 := updateGrid b.to_rows r.toNat c.toNat player
    let rows := flips.foldl (fun g rc => updateGrid g rc.1.toNat rc.2.toNat player) rows0
    Board.from_rows rows

/-- `has_any_move(board, player)`: `len(valid_moves(board, player)) > 0`. -/
def has_any_move (b : Board) (player : String) : Bool :=
  !(valid_moves b player).isEmpty

/-- `score(board)`: `(black_count, white_count)`. -/
def score (b : Board) : Nat × Nat :=
  (b.count BLACK, b.count WHITE)

/-! ### reversi/protocol.py (message constants) -/

/-- `NEW_GAME` message prefix. -/
def NEW_GAME : String := "NEW GAME"

/-- `MOVE` message prefix. -/
def MOVE : String := "MOVE"

/-- `PASS` token. -/
def PASS : String := "PASS"

/-- `YOU_WIN` token. -/
def YOU_WIN : String := "YOU WIN"

/-- `YOU_LOSE` token. -/
def YOU_LOSE : String := "YOU LOSE"

/-- `DRAW` token. -/
def DRAW : String := "DRAW"

/-- `ERROR` token. -/
def ERROR : String := "ERROR"

/-! ### reversi/game/outcome.py -/

/-- `outcome_token_for(board, my_color)`: the token to send to the peer
(peer-addressed). -/
def outcome_token_for (board : Board) (my_color : String) : String :=
  let s := score board
  if s.1 = s.2 then DRAW
  else if my_color = BLACK then
    (if s.1 > s.2 then YOU_LOSE else YOU_WIN)
  else
    (if s.2 > s.1 then YOU_LOSE else YOU_WIN)

/-- `verify_peer_outcome(board, my_color, peer_token)`: check a token
received from the peer against the local replica. -/
def verify_peer_outcome (board : Board) (my_color : String) (peer_token : String) : Bool :=
  let s := score board
  if peer_token = DRAW then s.1 == s.2
  else if my_color = BLACK then
    (if peer_token = YOU_WIN then decide (s.1 > s.2) else decide (s.2 > s.1))
  else
    (if peer_token = YOU_WIN then decide (s.2 > s.1) else decide (s.1 > s.2))

end Reversi

namespace Reversi

/-- Claim C1: for every board, verifying on one side the outcome token
produced by the other side on the same board is always true, for both
colours: `verify_peer_outcome(B, opposite(C), outcome_token_for(B, C))`. -/
theorem verify_of_outcome_token (b : Board) :
    verify_peer_outcome b (opponent BLACK) (outcome_token_for b BLACK) = true ∧
    verify_peer_outcome b (opponent WHITE) (outcome_token_for b WHITE) = true := by
  have hob : opponent BLACK = WHITE := by decide
  have how : opponent WHITE = BLACK := by decide
  rw [hob, how]
  simp only [verify_peer_outcome, outcome_token_for, score]
  rcases Nat.lt_trichotomy (b.count BLACK) (b.count WHITE) with h | h | h <;>
    split_ifs <;> simp_all [YOU_WIN, YOU_LOSE, DRAW, BLACK, WHITE]

end Reversi

namespace Reversi

/-! ### reversi/protocol.py (codec) -/

/-- `ProtocolError` raised by codec and transport (messages elided). -/
inductive ProtocolError
  | mk
deriving DecidableEq, Repr

/-- Gameplay port lower bound `PORT_MIN = 9000`. -/
def PORT_MIN : Int := 9000

/-- Gameplay port upper bound `PORT_MAX = 9100`. -/
def PORT_MAX : Int := 9100

/-- Wire coordinate bound `ROW_MIN = 0`. -/
def ROW_MIN : Int := 0

/-- Wire coordinate bound `ROW_MAX = 7`. -/
def ROW_MAX : Int := 7

/-- Wire coordinate bound `COL_MIN = 0`. -/
def COL_MIN : Int := 0

/-- Wire coordinate bound `COL_MAX = 7`. -/
def COL_MAX : Int := 7

/-- Typed decode result of `MOVE:r,c`. -/
structure MsgMove where
  row : Int
  col : Int
deriving DecidableEq, Repr

/-- `_strip_line(line)`: `line.rstrip("\r\n")`, dropping every trailing CR or
LF character. -/
def _strip_line (line : String) : String :=
  ⟨(line.data.reverse.dropWhile (fun ch => ch == '\r' || ch == '\n')).reverse⟩

/-- An ASCII decimal digit.  (Python's `\d` also matches other Unicode
decimal digits; the wire protocol and all claims only involve ASCII.) -/
def isDigitChar (ch : Char) : Bool :=
  '0' ≤ ch && ch ≤ '9'

/-- Value of a digit string, as `int()` computes it for an all-digit string. -/
def digitsVal (cs : List Char) : Nat :=
  cs.foldl (fun acc ch => 10 * acc + (ch.toNat - '0'.toNat)) 0

/-- Full match of one regex group `-?\d+`, with `int()` applied: an optional
minus sign followed by one or more digits. -/
def matchSignedInt (cs : List Char) : Option Int :=
  match cs with
  | [] => none
  | ch :: rest =>
    if ch = '-' then
      if !rest.isEmpty && rest.all isDigitChar then some (-(digitsVal rest : Int)) else none
    else
      if (ch :: rest).all isDigitChar then some ((digitsVal (ch :: rest) : Int)) else none

/-- Full match of one regex group `\d+`, with `int()` applied. -/
def matchDigits (cs : List Char) : Option Int :=
  if !cs.isEmpty && cs.all isDigitChar then some ((digitsVal cs : Int)) else none

/-- `_validate_port(port)`. -/
def _validate_port (port : Int) : Except ProtocolError Unit :=
  if PORT_MIN ≤ port ∧ port ≤ PORT_MAX then .ok () else .error .mk

/-- `_validate_coord(row, col)`. -/
def _validate_coord (row col : Int) : Except ProtocolError Unit :=
  if ROW_MIN ≤ row ∧ row ≤ ROW_MAX ∧ COL_MIN ≤ col ∧ col ≤ COL_MAX then .ok ()
  else .error .mk

/-- `encode_new_game(port)`: `"NEW GAME:<port>"` after validation. -/
def encode_new_game (port : Int) : Except ProtocolError String :=
  match _validate_port port with
  | .ok _ => .ok (NEW_GAME ++ ":" ++ toString port)
  | .error e => .error e

/-- `decode_new_game(line)`: strip CR/LF, match `^NEW GAME:(\d+)$`, parse the
port and validate its range. -/
def decode_new_game (line : String) : Except ProtocolError Int :=
  let s := _strip_line line
  if s.data.take 9 = (NEW_GAME ++ ":").data then
    match matchDigits (s.data.drop 9) with
    | some port =>
      match _validate_port port with
      | .ok _ => .ok port
      | .error e => .error e
    | none => .error .mk
  else .error .mk

/-- `encode_move(row, col)`: `"MOVE:r,c"` after validation. -/
def encode_move (row col : Int) : Except ProtocolError String :=
  match _validate_coord row col with
  | .ok _ => .ok (MOVE ++ ":" ++ toString row ++ "," ++ toString col)
  | .error e => .error e

/-- `decode_move(line)`: strip CR/LF, match `^MOVE:(-?\d+),(-?\d+)$` (the
first group cannot contain a comma, so the separating comma is the first
one), parse both groups and validate bounds. -/
def decode_move (line : String) : Except ProtocolError MsgMove :=
  let s := _strip_line line
  if s.data.take 5 = (MOVE ++ ":").data then
    let rest := s.data.drop 5
    let p := rest.span (fun ch => ch != ',')
    match p.2 with
    | ',' :: tl =>
      match matchSignedInt p.1, matchSignedInt tl with
      | some r, some c =>
        match _validate_coord r c with
        | .ok _ => .ok ⟨r, c⟩
        | .error e => .error e
      | _, _ => .error .mk
    | _ => .error .mk
  else .error .mk

/-- `_token_kind_or_none(line)`: the exact token the stripped line equals. -/
def _token_kind_or_none (line : String) : Option String :=
  let s := _strip_line line
  if s = PASS then some PASS
  else if s = DRAW then some DRAW
  else if s = YOU_WIN then some YOU_WIN
  else if s = YOU_LOSE then some YOU_LOSE
  else if s = ERROR then some ERROR
  else none

/-- `is_token(line)`. -/
def is_token (line : String) : Bool :=
  (_token_kind_or_none line).isSome

end Reversi


namespace Reversi

/-- Claim C8: encoding then decoding is the identity on the valid domain:
`decode_move(encode_move(r,c)) = (r,c)` for all coordinates in 0..7, and
`decode_new_game(encode_new_game(p)) = p` for all ports in 9000..9100. -/
theorem encode_decode_round_trip :
    (∀ r c : Int, 0 ≤ r → r ≤ 7 → 0 ≤ c → c ≤ 7 →
      ∃ s, encode_move r c = .ok s ∧ decode_move s = .ok ⟨r, c⟩) ∧
    (∀ p : Int, 9000 ≤ p → p ≤ 9100 →
      ∃ s, encode_new_game p = .ok s ∧ decode_new_game s = .ok p) := by
  constructor
  · intro r c hr0 hr7 hc0 hc7
    interval_cases r <;> interval_cases c <;> exact ⟨_, rfl, by decide⟩
  · intro p hp0 hp1
    interval_cases p <;> exact ⟨_, rfl, by decide⟩

/-- Witness for C8 at the concrete inputs (2,3) and 9000. -/
theorem encode_decode_round_trip_witness :
    (∃ s, encode_move 2 3 = .ok s ∧ decode_move s = .ok ⟨2, 3⟩) ∧
    (∃ s, encode_new_game 9000 = .ok s ∧ decode_new_game s = .ok 9000) :=
  ⟨encode_decode_round_trip.1 2 3 (by decide) (by decide) (by decide) (by decide),
   encode_decode_round_trip.2 9000 (by decide) (by decide)⟩

end Reversi

namespace Reversi

/-- Digits are not CR or LF, so `rstrip` does not touch them. -/
theorem isDigit_not_crlf (ch : Char) (h : isDigitChar ch = true) :
    (ch == '\r' || ch == '\n') = false := by
  have h1 : ch ≠ '\r' := by rintro rfl; exact absurd h (by decide)
  have h2 : ch ≠ '\n' := by rintro rfl; exact absurd h (by decide)
  simp [h1, h2]

/-- Digits are not commas, so the span in `decode_move` passes over them. -/
theorem isDigit_ne_comma (ch : Char) (h : isDigitChar ch = true) :
    (ch != ',') = true := by
  have h1 : ch ≠ ',' := by rintro rfl; exact absurd h (by decide)
  simp [h1]

/-- `_strip_line` is the identity on a string whose last character is not CR
or LF. -/
theorem strip_append_singleton (l : List Char) (d : Char)
    (hd : (d == '\r' || d == '\n') = false) :
    _strip_line ⟨l ++ [d]⟩ = ⟨l ++ [d]⟩ := by
  unfold _strip_line
  have hrev : (l ++ [d]).reverse = d :: l.reverse := by simp
  rw [hrev]
  simp [List.dropWhile_cons, hd]

/-- `takeWhile` and `dropWhile` split an append at the first failing
element. -/
theorem takeWhile_dropWhile_append {α : Type} (p : α → Bool) (l1 : List α)
    (a : α) (l2 : List α) (h : ∀ x ∈ l1, p x = true) (ha : p a = false) :
    (l1 ++ a :: l2).takeWhile p = l1 ∧ (l1 ++ a :: l2).dropWhile p = a :: l2 := by
  induction l1 with
  | nil => simp [List.takeWhile_cons, List.dropWhile_cons, ha]
  | cons x xs ih =>
    have hx : p x = true := h x (by simp)
    have hxs : ∀ y ∈ xs, p y = true := fun y hy => h y (by simp [hy])
    obtain ⟨ht, hdp⟩ := ih hxs
    simp [List.takeWhile_cons, List.dropWhile_cons, hx, ht, hdp]

/-- A nonempty all-digit group fully matches `-?\d+` with its decimal
value. -/
theorem matchSignedInt_digits (cs : List Char) (h1 : cs ≠ [])
    (h2 : cs.all isDigitChar = true) :
    matchSignedInt cs = some ((digitsVal cs : Int)) := by
  match cs, h1 with
  | ch :: rest, _ =>
    have hch : isDigitChar ch = true := by
      have := List.all_eq_true.mp h2 ch (by simp)
      exact this
    have hne : ch ≠ '-' := by rintro rfl; exact absurd hch (by decide)
    simp [matchSignedInt, hne, h2]

/-- A nonempty all-digit group fully matches `\d+` with its decimal value. -/
theorem matchDigits_digits (cs : List Char) (h1 : cs ≠ [])
    (h2 : cs.all isDigitChar = true) :
    matchDigits cs = some ((digitsVal cs : Int)) := by
  simp [matchDigits, h1, h2]

/-- `decode_move` accepts any two in-range digit groups, canonical or not. -/
theorem decode_move_digit_groups (ds1 ds2 : List Char)
    (h1 : ds1 ≠ []) (h2 : ds2 ≠ [])
    (ha1 : ds1.all isDigitChar = true) (ha2 : ds2.all isDigitChar = true)
    (hv1 : digitsVal ds1 ≤ 7) (hv2 : digitsVal ds2 ≤ 7) :
    decode_move ⟨'M' :: 'O' :: 'V' :: 'E' :: ':' :: (ds1 ++ ',' :: ds2)⟩ =
      .ok ⟨(digitsVal ds1 : Int), (digitsVal ds2 : Int)⟩ := by
  obtain ⟨l2, d, rfl⟩ : ∃ l2 d, ds2 = l2 ++ [d] :=
    ⟨ds2.dropLast, ds2.getLast h2, (ds2.dropLast_append_getLast h2).symm⟩
  have hd : isDigitChar d = true := List.all_eq_true.mp ha2 d (by simp)
  have hshape : 'M' :: 'O' :: 'V' :: 'E' :: ':' :: (ds1 ++ ',' :: (l2 ++ [d])) =
      ('M' :: 'O' :: 'V' :: 'E' :: ':' :: (ds1 ++ ',' :: l2)) ++ [d] := by simp
  simp only [decode_move]
  rw [hshape, strip_append_singleton _ _ (isDigit_not_crlf d hd), ← hshape]
  have hdigits1 : ∀ x ∈ ds1, (x != ',') = true := fun x hx =>
    isDigit_ne_comma x (List.all_eq_true.mp ha1 x hx)
  obtain ⟨htake, hdrop⟩ :=
    takeWhile_dropWhile_append (fun ch => ch != ',') ds1 ',' (l2 ++ [d])
      hdigits1 (by decide)
  simp only [List.span_eq_take_drop, List.take_succ_cons, List.take_zero,
    List.drop_succ_cons, List.drop_zero, htake, hdrop]
  rw [if_pos (by decide : (['M', 'O', 'V', 'E', ':'] : List Char) = (MOVE ++ ":").data)]
  rw [matchSignedInt_digits ds1 h1 ha1, matchSignedInt_digits (l2 ++ [d]) (by simp) ha2]
  unfold _validate_coord
  have hcoord : ROW_MIN ≤ (digitsVal ds1 : Int) ∧ (digitsVal ds1 : Int) ≤ ROW_MAX ∧
      COL_MIN ≤ (digitsVal (l2 ++ [d]) : Int) ∧ (digitsVal (l2 ++ [d]) : Int) ≤ COL_MAX := by
    refine ⟨?_, ?_, ?_, ?_⟩ <;> simp only [ROW_MIN, ROW_MAX, COL_MIN, COL_MAX] <;> omega
  simp [hcoord]

/-- `decode_new_game` accepts any in-range digit group, canonical or not. -/
theorem decode_new_game_digit_group (ds : List Char) (h1 : ds ≠ [])
    (ha : ds.all isDigitChar = true)
    (hlo : 9000 ≤ digitsVal ds) (hhi : digitsVal ds ≤ 9100) :
    decode_new_game ⟨'N' :: 'E' :: 'W' :: ' ' :: 'G' :: 'A' :: 'M' :: 'E' :: ':' :: ds⟩ =
      .ok ((digitsVal ds : Int)) := by
  obtain ⟨l2, d, rfl⟩ : ∃ l2 d, ds = l2 ++ [d] :=
    ⟨ds.dropLast, ds.getLast h1, (ds.dropLast_append_getLast h1).symm⟩
  have hd : isDigitChar d = true := List.all_eq_true.mp ha d (by simp)
  have hshape : 'N' :: 'E' :: 'W' :: ' ' :: 'G' :: 'A' :: 'M' :: 'E' :: ':' :: (l2 ++ [d]) =
      ('N' :: 'E' :: 'W' :: ' ' :: 'G' :: 'A' :: 'M' :: 'E' :: ':' :: l2) ++ [d] := by simp
  simp only [decode_new_game]
  rw [hshape, strip_append_singleton _ _ (isDigit_not_crlf d hd), ← hshape]
  simp only [List.take_succ_cons, List.take_zero, List.drop_succ_cons, List.drop_zero]
  rw [if_pos (by decide :
    (['N', 'E', 'W', ' ', 'G', 'A', 'M', 'E', ':'] : List Char) = (NEW_GAME ++ ":").data)]
  rw [matchDigits_digits (l2 ++ [d]) (by simp) ha]
  unfold _validate_port
  have hport : PORT_MIN ≤ (digitsVal (l2 ++ [d]) : Int) ∧
      (digitsVal (l2 ++ [d]) : Int) ≤ PORT_MAX := by
    constructor <;> simp only [PORT_MIN, PORT_MAX] <;> omega
  simp [hport]

/-- Claim C9: the wire decoders accept any digit string whose value is in
range, not only canonical encodings: leading zeros and a negative-zero
component are accepted, as is any in-range digit group. -/
theorem decoders_accept_noncanonical :
    decode_move "MOVE:07,3" = .ok ⟨7, 3⟩ ∧
    decode_move "MOVE:-0,0" = .ok ⟨0, 0⟩ ∧
    decode_new_game "NEW GAME:09000" = .ok 9000 ∧
    (∀ ds1 ds2 : List Char, ds1 ≠ [] → ds2 ≠ [] →
      ds1.all isDigitChar = true → ds2.all isDigitChar = true →
      digitsVal ds1 ≤ 7 → digitsVal ds2 ≤ 7 →
      decode_move ⟨'M' :: 'O' :: 'V' :: 'E' :: ':' :: (ds1 ++ ',' :: ds2)⟩ =
        .ok ⟨(digitsVal ds1 : Int), (digitsVal ds2 : Int)⟩) ∧
    (∀ ds : List Char, ds ≠ [] → ds.all isDigitChar = true →
      9000 ≤ digitsVal ds → digitsVal ds ≤ 9100 →
      decode_new_game ⟨'N' :: 'E' :: 'W' :: ' ' :: 'G' :: 'A' :: 'M' :: 'E' :: ':' :: ds⟩ =
        .ok ((digitsVal ds : Int))) :=
  ⟨by decide, by decide, by decide, decode_move_digit_groups, decode_new_game_digit_group⟩

/-- Witness for C9: the general digit-group acceptance applied to the
non-canonical encodings "MOVE:07,3" and "NEW GAME:09000". -/
theorem decoders_accept_noncanonical_witness :
    decode_move ⟨'M' :: 'O' :: 'V' :: 'E' :: ':' :: (['0', '7'] ++ ',' :: ['3'])⟩ =
      .ok ⟨7, 3⟩ ∧
    decode_new_game
        ⟨'N' :: 'E' :: 'W' :: ' ' :: 'G' :: 'A' :: 'M' :: 'E' :: ':' ::
          ['0', '9', '0', '0', '0']⟩ = .ok 9000 :=
  ⟨decoders_accept_noncanonical.2.2.2.1 ['0', '7'] ['3'] (by decide) (by decide)
      (by decide) (by decide) (by decide) (by decide),
   decoders_accept_noncanonical.2.2.2.2 ['0', '9', '0', '0', '0'] (by decide)
      (by decide) (by decide) (by decide)⟩

end Reversi

namespace Reversi

/-! ### reversi/net/udp_discovery.py (advert tie-breaker) -/

/-- `_tie_breaker_key(ts, ip, port)`.  Advert timestamps are finite
`time.time()` floats; their order structure is embedded as rationals.  IP
addresses are compared as Python strings, i.e. lexicographically by code
point, which is also Lean's `String` order. -/
def _tie_breaker_key (ts : ℚ) (ip : String) (port : Int) : ℚ × String × Int :=
  (ts, ip, port)

/-- Python's lexicographic `<` on the 3-tuples built by `_tie_breaker_key`. -/
def keyLt (a b : ℚ × String × Int) : Prop :=
  a.1 < b.1 ∨ (a.1 = b.1 ∧ (a.2.1 < b.2.1 ∨ (a.2.1 = b.2.1 ∧ a.2.2 < b.2.2)))

instance : ∀ a b, Decidable (keyLt a b) := fun a b => by
  unfold keyLt; infer_instance

/-- `_prefer_peer(...)`: true iff the peer's key is strictly smaller. -/
def _prefer_peer (my_ad_ts : ℚ) (my_ip : String) (my_port : Int)
    (peer_ts : ℚ) (peer_ip : String) (peer_port : Int) : Prop :=
  keyLt (_tie_breaker_key peer_ts peer_ip peer_port)
    (_tie_breaker_key my_ad_ts my_ip my_port)

instance : ∀ a b c d e f, Decidable (_prefer_peer a b c d e f) := fun _ _ _ _ _ _ => by
  unfold _prefer_peer; infer_instance

/-- Claim C5: the election demotes a peer exactly when the other key is
lexicographically strictly smaller — lower IP wins a timestamp tie, lower
port an IP tie — and identical keys demote neither side. -/
theorem prefer_peer_lex (my_ts : ℚ) (my_ip : String) (my_port : Int)
    (peer_ts : ℚ) (peer_ip : String) (peer_port : Int) :
    (_prefer_peer my_ts my_ip my_port peer_ts peer_ip peer_port ↔
      (peer_ts < my_ts ∨ (peer_ts = my_ts ∧ peer_ip < my_ip) ∨
        (peer_ts = my_ts ∧ peer_ip = my_ip ∧ peer_port < my_port))) ∧
    (my_ts = peer_ts → my_ip = peer_ip → my_port = peer_port →
      ¬ _prefer_peer my_ts my_ip my_port peer_ts peer_ip peer_port ∧
      ¬ _prefer_peer peer_ts peer_ip peer_port my_ts my_ip my_port) := by
  constructor
  · unfold _prefer_peer keyLt _tie_breaker_key
    tauto
  · rintro rfl rfl rfl
    unfold _prefer_peer keyLt _tie_breaker_key
    simp

/-- Witness for C5: two fully identical advert keys demote neither side. -/
theorem prefer_peer_lex_witness :
    ¬ _prefer_peer 0 "192.168.0.7" 9000 0 "192.168.0.7" 9000 :=
  ((prefer_peer_lex 0 "192.168.0.7" 9000 0 "192.168.0.7" 9000).2 rfl rfl rfl).1

/-! ### reversi/net/tcp_game.py (`TcpGame.recv_line`) -/

/-- `_MAX_LINE_LEN = 1024`. -/
def MAX_LINE_LEN : Nat := 1024

/-- Failure causes of `recv_line` (each raised as `ProtocolError`). -/
inductive TcpError
  | lineTooLong
  | connClosed
  | noData
deriving DecidableEq, Repr

/-- `TcpGame.recv_line`, modelled over explicit state: `buf` is the internal
read buffer `self._rbuf`, `segs` the successive chunks that `sock.recv(4096)`
would return (an empty chunk models the peer closing; exhausting `segs`
models blocking forever, which the socket deadline turns into a timeout
`ProtocolError`).  Bytes are naturals; 10 is LF, 13 is CR.  Returns the line
without its terminator together with the remaining buffer and chunks. -/
def recv_line : List Nat → List (List Nat) →
    Except TcpError (List Nat × List Nat × List (List Nat))
  | buf, [] =>
    match buf.findIdx? (fun byte => byte == 10) with
    | some nl =>
      let withoutLf := buf.take nl
      let line := if withoutLf.getLast? = some 13 then withoutLf.dropLast else withoutLf
      .ok (line, buf.drop (nl + 1), [])
    | none =>
      if MAX_LINE_LEN ≤ buf.length then .error .lineTooLong
      else .error .noData
  | buf, chunk :: rest =>
    match buf.findIdx? (fun byte => byte == 10) with
    | some nl =>
      let withoutLf := buf.take nl
      let line := if withoutLf.getLast? = some 13 then withoutLf.dropLast else withoutLf
      .ok (line, buf.drop (nl + 1), chunk :: rest)
    | none =>
      if MAX_LINE_LEN ≤ buf.length then .error .lineTooLong
      else if chunk.isEmpty then .error .connClosed
      else recv_line (buf ++ chunk) rest

end Reversi


namespace Reversi

/-- No LF in the buffer means the newline search fails. -/
theorem findIdx_lf_none (buf : List Nat) (h : ∀ byte ∈ buf, byte ≠ 10) :
    buf.findIdx? (fun byte => byte == 10) = none := by
  rw [List.findIdx?_eq_none_iff]
  intro x hx
  simpa using h x hx

/-- Claim C6 (amended): `recv_line` fails with the oversized-line
`ProtocolError` whenever at some point the buffered bytes reach 1024 without
containing the terminating LF — in particular whenever an over-long line
arrives in chunks such that the LF is not in the same chunk that first
carries the buffer past the limit. -/
theorem recv_line_long_line_fails (k : Nat) :
    ∀ (buf : List Nat) (segs : List (List Nat)),
      k ≤ segs.length →
      MAX_LINE_LEN ≤ (buf ++ (segs.take k).flatten).length →
      (∀ byte ∈ buf ++ (segs.take k).flatten, byte ≠ 10) →
      (∀ chunk ∈ segs.take k, chunk ≠ []) →
      recv_line buf segs = .error .lineTooLong := by
  induction k with
  | zero =>
    intro buf segs _ hlen hnl _
    simp only [List.take_zero, List.flatten_nil, List.append_nil] at hlen hnl
    have hfind := findIdx_lf_none buf hnl
    cases segs with
    | nil => simp [recv_line, hfind, hlen]
    | cons chunk rest => simp [recv_line, hfind, hlen]
  | succ k ih =>
    intro buf segs hk hlen hnl hchunks
    by_cases hbuf : MAX_LINE_LEN ≤ buf.length
    · have hnlbuf : ∀ byte ∈ buf, byte ≠ 10 := fun byte hb => hnl byte (by simp [hb])
      have hfind := findIdx_lf_none buf hnlbuf
      cases segs with
      | nil => simp [recv_line, hfind, hbuf]
      | cons chunk rest => simp [recv_line, hfind, hbuf]
    · cases segs with
      | nil => simp at hk
      | cons chunk rest =>
        have hnlbuf : ∀ byte ∈ buf, byte ≠ 10 := fun byte hb => hnl byte (by simp [hb])
        have hfind := findIdx_lf_none buf hnlbuf
        have hc : chunk ≠ [] := hchunks chunk (by simp [List.take_succ_cons])
        have hstep : recv_line buf (chunk :: rest) = recv_line (buf ++ chunk) rest := by
          simp [recv_line, hfind, hbuf, List.isEmpty_iff, hc]
        rw [hstep]
        have happ : (buf ++ chunk) ++ (rest.take k).flatten =
            buf ++ ((chunk :: rest).take (k + 1)).flatten := by
          simp [List.take_succ_cons]
        refine ih (buf ++ chunk) rest (by simpa using hk) ?_ ?_ ?_
        · rw [happ]; exact hlen
        · rw [happ]; exact hnl
        · intro ch hch
          exact hchunks ch (by simp [List.take_succ_cons, hch])

/-- Witness for C6 (amended): a buffer of 1024 non-LF bytes with no further
data is rejected as an over-long line. -/
theorem recv_line_long_line_fails_witness :
    recv_line (List.replicate 1024 97) [] = .error .lineTooLong :=
  recv_line_long_line_fails 0 (List.replicate 1024 97) [] (by simp)
    (by simp only [List.take_zero, List.flatten_nil, List.append_nil,
          List.length_replicate, MAX_LINE_LEN]
        omega)
    (by intro byte hb
        simp only [List.take_zero, List.flatten_nil, List.append_nil,
          List.mem_replicate] at hb
        omega)
    (by simp)

set_option maxRecDepth 8000 in
/-- Counterexample to C6 as stated: a 1025-byte line whose bytes and LF all
arrive in one `recv(4096)` chunk is returned successfully, not rejected. -/
theorem recv_line_long_line_counterexample :
    recv_line [] [List.replicate 1025 97 ++ [10]] =
      .ok (List.replicate 1025 97, [], []) := by decide

end Reversi

namespace Reversi

/-! ### reversi/main.py (`run_network_game`, opponent-turn dispatch) -/

/-- Python's `line.startswith(pre)` on strings, by character list. -/
def strStartsWith (line pre : String) : Bool :=
  line.data.take pre.data.length == pre.data

/-- One iteration of the opponent-turn branch of `run_network_game`, as a
pure function of the received line and the driver state: the lines sent to
the peer in that branch, the status `run_network_game` returns (`none` when
the loop continues), the updated replica and the updated consecutive-pass
counter.  Note that no case matches a received `ERROR` line: `is_token`
accepts it but the outcome dispatch requires one of YOU WIN / YOU LOSE /
DRAW, so `ERROR` falls into the catch-all unexpected-message branch. -/
def peer_step (board : Board) (my_color : String) (passes : Nat) (line : String) :
    List String × Option Nat × Board × Nat :=
  let opp_color := opponent my_color
  if line = PASS then
    if !(has_any_move board my_color) || passes + 1 ≥ 2 then
      ([outcome_token_for board my_color], some 0, board, passes + 1)
    else
      ([], none, board, passes + 1)
  else if is_token line && (line == YOU_WIN || line == YOU_LOSE || line == DRAW) then
    if verify_peer_outcome board my_color line then
      ([], some 0, board, passes)
    else
      ([ERROR], some 1, board, passes)
  else if !(strStartsWith line (MOVE ++ ":")) then
    ([ERROR], some 1, board, passes)
  else
    match decode_move line with
    | .error _ => ([ERROR], some 1, board, passes)
    | .ok msg =>
      match apply_move board opp_color msg.row msg.col with
      | .error _ => ([ERROR], some 1, board, passes)
      | .ok board2 => ([], none, board2, 0)

/-- Counterexample to C7 as stated: receiving `ERROR` produces exactly the
same result as the malformed line `HELLO:WORLD` — the catch-all branch —
and that branch replies `ERROR` to the peer instead of staying silent. -/
theorem peer_step_error_counterexample :
    peer_step Board.initial BLACK 0 "ERROR" = (["ERROR"], some 1, Board.initial, 0) ∧
    peer_step Board.initial BLACK 0 "HELLO:WORLD" =
      peer_step Board.initial BLACK 0 "ERROR" := by
  constructor <;> decide

/-- Claim C7 (amended): in `run_network_game`'s peer-turn dispatch a received
`ERROR` line is not a distinct case: in every state it falls into the
catch-all malformed-line branch, which sends `ERROR` back to the peer,
closes, and returns the non-zero status 1. -/
theorem peer_step_error_line (board : Board) (my_color : String) (passes : Nat) :
    peer_step board my_color passes "ERROR" = ([ERROR], some 1, board, passes) := by
  unfold peer_step
  rw [if_neg (by decide : ¬ (("ERROR" : String) = PASS))]
  rw [if_neg (by decide), if_pos (by decide)]

end Reversi

namespace Reversi

/-! ### Grid access and counting lemmas for the rules engine -/

/-- Cell of a raw grid at natural indices; `Board.cell` after `toNat`. -/
def cellN (g : List (List String)) (rn cn : Nat) : String :=
  (g.getD rn []).getD cn ""

theorem Board_cell_eq_cellN (b : Board) (r c : Int) :
    b.cell r c = cellN b.grid r.toNat c.toNat := rfl

theorem getD_mem_of_lt {α : Type} (l : List α) (i : Nat) (d : α) (h : i < l.length) :
    l.getD i d ∈ l := by
  rw [List.getD_eq_getElem?_getD, List.getElem?_eq_getElem h]
  exact List.getElem_mem h

theorem WFgrid_row_length {g : List (List String)} (hw : WFgrid g) {rn : Nat}
    (hr : rn < 8) : (g.getD rn []).length = 8 := by
  obtain ⟨hlen, hrows⟩ := hw
  exact (hrows _ (getD_mem_of_lt g rn [] (by omega))).1

theorem WFgrid_updateGrid {g : List (List String)} (hw : WFgrid g) {v : String}
    (hv : validCell v = true) (r c : Nat) : WFgrid (updateGrid g r c v) := by
  obtain ⟨hlen, hrows⟩ := hw
  refine ⟨by simp [updateGrid, hlen], ?_⟩
  intro row hrow
  by_cases hr : r < g.length
  · rcases List.mem_or_eq_of_mem_set hrow with h | rfl
    · exact hrows row h
    · obtain ⟨hl, hcells⟩ := hrows _ (getD_mem_of_lt g r [] hr)
      refine ⟨by rw [List.length_set]; exact hl, ?_⟩
      intro cell hcell
      rcases List.mem_or_eq_of_mem_set hcell with h2 | rfl
      · exact hcells cell h2
      · exact hv
  · rw [updateGrid, List.set_eq_of_length_le (by omega)] at hrow
    exact hrows row hrow

theorem cellN_updateGrid_self (g : List (List String)) (r c : Nat) (v : String)
    (hr : r < g.length) (hc : c < (g.getD r []).length) :
    cellN (updateGrid g r c v) r c = v := by
  unfold cellN updateGrid
  simp only [List.getD_eq_getElem?_getD] at hc ⊢
  rw [List.getElem?_set_self hr]
  simp only [Option.getD_some]
  rw [List.getElem?_set_self hc]
  rfl

theorem cellN_updateGrid_ne (g : List (List String)) (r c r2 c2 : Nat) (v : String)
    (h : ¬(r = r2 ∧ c = c2)) : cellN (updateGrid g r c v) r2 c2 = cellN g r2 c2 := by
  unfold cellN updateGrid
  simp only [List.getD_eq_getElem?_getD]
  by_cases hr : r = r2
  · subst hr
    have hc : c ≠ c2 := fun hc => h ⟨rfl, hc⟩
    by_cases hlt : r < g.length
    · rw [List.getElem?_set_self hlt]
      simp only [Option.getD_some]
      rw [List.getElem?_set_ne hc]
    · rw [List.set_eq_of_length_le (by omega)]
  · rw [List.getElem?_set_ne hr]

theorem count_set_add (l : List String) (i : Nat) (a p : String) (h : i < l.length) :
    (l.set i a).count p + (if l.getD i "" == p then 1 else 0)
      = l.count p + (if a == p then 1 else 0) := by
  induction l generalizing i with
  | nil => simp at h
  | cons x xs ih =>
    cases i with
    | zero =>
      cases hap : a == p <;> cases hxp : x == p <;>
        simp [List.count_cons, hap, hxp]
    | succ i =>
      have hlen : i < xs.length := by simpa using h
      have hih := ih i hlen
      cases hxp : x == p <;>
        simp only [List.set_cons_succ, List.count_cons, List.getD_cons_succ, hxp] <;>
        omega

theorem sum_map_set {α : Type} (f : α → Nat) (l : List α) (i : Nat) (a : α)
    (h : i < l.length) :
    ((l.set i a).map f).sum + f (l.getD i a) = (l.map f).sum + f a := by
  induction l generalizing i with
  | nil => simp at h
  | cons x xs ih =>
    cases i with
    | zero => simp [List.getD_cons_zero]; omega
    | succ i =>
      have hlen : i < xs.length := by simpa using h
      have hih := ih i hlen
      simp only [List.set_cons_succ, List.map_cons, List.sum_cons, List.getD_cons_succ]
      omega

/-- Counting a cell rewrite: additive form avoiding truncated subtraction. -/
theorem gridCount_updateGrid (g : List (List String)) (r c : Nat) (v p : String)
    (hr : r < g.length) (hc : c < (g.getD r []).length) :
    gridCount (updateGrid g r c v) p + (if cellN g r c == p then 1 else 0)
      = gridCount g p + (if v == p then 1 else 0) := by
  unfold gridCount updateGrid cellN
  have hsum := sum_map_set (fun row => row.count p) g r ((g.getD r []).set c v) hr
  have hrow := count_set_add (g.getD r []) c v p hc
  have hgd : g.getD r ((g.getD r []).set c v) = g.getD r [] := by
    rw [List.getD_eq_getElem?_getD, List.getElem?_eq_getElem hr,
      List.getD_eq_getElem?_getD, List.getElem?_eq_getElem hr]
    rfl
  rw [hgd] at hsum
  simp only [] at hsum
  omega

/-! ### Properties of the flip lists -/

/-- Everything `lineWalk` returns lies on the ray from its start, within
bounds, and currently holds the `opp` colour. -/
theorem lineWalk_mem (b : Board) (player opp : String) (dr dc : Int) :
    ∀ (fuel : Nat) (rr cc : Int) (l : List (Int × Int)),
      lineWalk b player opp dr dc fuel rr cc = some l →
      ∀ x ∈ l, (∃ k : Int, 0 ≤ k ∧ x = (rr + k * dr, cc + k * dc)) ∧
        in_bounds x.1 x.2 = true ∧ b.cell x.1 x.2 = opp := by
  intro fuel
  induction fuel with
  | zero => intro rr cc l h; simp [lineWalk] at h
  | succ fuel ih =>
    intro rr cc l h
    rw [lineWalk] at h
    by_cases hib : in_bounds rr cc
    · rw [if_pos hib] at h
      by_cases hopp : b.cell rr cc = opp
      · rw [if_pos hopp] at h
        cases hrec : lineWalk b player opp dr dc fuel (rr + dr) (cc + dc) with
        | none => rw [hrec] at h; cases h
        | some rest =>
          rw [hrec] at h
          cases h
          intro x hx
          rcases List.mem_cons.mp hx with rfl | hxrest
          · exact ⟨⟨0, le_refl 0, by simp⟩, hib, hopp⟩
          · obtain ⟨⟨k, hk0, hkx⟩, hxb, hxc⟩ := ih (rr + dr) (cc + dc) rest hrec x hxrest
            refine ⟨⟨k + 1, by omega, ?_⟩, hxb, hxc⟩
            rw [hkx, Prod.mk.injEq]
            constructor <;> ring
      · rw [if_neg hopp] at h
        by_cases hpl : b.cell rr cc = player
        · rw [if_pos hpl] at h
          cases h
          intro x hx
          simp at hx
        · rw [if_neg hpl] at h; cases h
    · rw [if_neg hib] at h; cases h

/-- `lineWalk` never repeats a cell when the direction is nonzero. -/
theorem lineWalk_nodup (b : Board) (player opp : String) (dr dc : Int)
    (hd : ¬(dr = 0 ∧ dc = 0)) :
    ∀ (fuel : Nat) (rr cc : Int) (l : List (Int × Int)),
      lineWalk b player opp dr dc fuel rr cc = some l → l.Nodup := by
  intro fuel
  induction fuel with
  | zero => intro rr cc l h; simp [lineWalk] at h
  | succ fuel ih =>
    intro rr cc l h
    rw [lineWalk] at h
    by_cases hib : in_bounds rr cc
    · rw [if_pos hib] at h
      by_cases hopp : b.cell rr cc = opp
      · rw [if_pos hopp] at h
        cases hrec : lineWalk b player opp dr dc fuel (rr + dr) (cc + dc) with
        | none => rw [hrec] at h; cases h
        | some rest =>
          rw [hrec] at h
          cases h
          refine List.nodup_cons.mpr ⟨?_, ih (rr + dr) (cc + dc) rest hrec⟩
          intro hmem
          obtain ⟨⟨k, hk0, hkx⟩, _, _⟩ :=
            lineWalk_mem b player opp dr dc fuel (rr + dr) (cc + dc) rest hrec
              (rr, cc) hmem
          have h1 : rr = rr + dr + k * dr := congrArg Prod.fst hkx
          have h2 : cc = cc + dc + k * dc := congrArg Prod.snd hkx
          have hdr : (k + 1) * dr = 0 := by ring_nf; omega
          have hdc : (k + 1) * dc = 0 := by ring_nf; omega
          rcases mul_eq_zero.mp hdr with hk | hz
          · omega
          · rcases mul_eq_zero.mp hdc with hk | hz2
            · omega
            · exact hd ⟨hz, hz2⟩
      · rw [if_neg hopp] at h
        by_cases hpl : b.cell rr cc = player
        · rw [if_pos hpl] at h; cases h; exact List.nodup_nil
        · rw [if_neg hpl] at h; cases h
    · rw [if_neg hib] at h; cases h

end Reversi

namespace Reversi

/-- Elements of `_line_flips` lie on the open ray from `(r, c)` in direction
`(dr, dc)`, in bounds, and hold the opponent colour. -/
theorem line_flips_mem (b : Board) (player : String) (r c dr dc : Int)
    (x : Int × Int) (hx : x ∈ _line_flips b player r c dr dc) :
    (∃ k : Int, 1 ≤ k ∧ x = (r + k * dr, c + k * dc)) ∧
      in_bounds x.1 x.2 = true ∧ b.cell x.1 x.2 = opponent player := by
  simp only [_line_flips] at hx
  by_cases hg : (in_bounds (r + dr) (c + dc) &&
      (b.cell (r + dr) (c + dc) == opponent player)) = true
  · rw [if_pos hg] at hx
    cases hw : lineWalk b player (opponent player) dr dc 16 (r + dr) (c + dc) with
    | none => rw [hw] at hx; simp at hx
    | some l =>
      rw [hw] at hx
      simp only [Option.getD_some] at hx
      obtain ⟨⟨k, hk0, hkx⟩, hb, hc⟩ :=
        lineWalk_mem b player (opponent player) dr dc 16 (r + dr) (c + dc) l hw x hx
      refine ⟨⟨k + 1, by omega, ?_⟩, hb, hc⟩
      rw [hkx, Prod.mk.injEq]
      constructor <;> ring
  · rw [if_neg hg] at hx
    simp at hx

/-- `_line_flips` has no duplicates (nonzero direction). -/
theorem line_flips_nodup (b : Board) (player : String) (r c dr dc : Int)
    (hd : ¬(dr = 0 ∧ dc = 0)) : (_line_flips b player r c dr dc).Nodup := by
  simp only [_line_flips]
  by_cases hg : (in_bounds (r + dr) (c + dc) &&
      (b.cell (r + dr) (c + dc) == opponent player)) = true
  · rw [if_pos hg]
    cases hw : lineWalk b player (opponent player) dr dc 16 (r + dr) (c + dc) with
    | none => simp
    | some l =>
      simpa using lineWalk_nodup b player (opponent player) dr dc hd 16 (r + dr) (c + dc) l hw
  · rw [if_neg hg]
    exact List.nodup_nil

/-- A nonempty `_line_flips` means the immediate neighbour is an in-bounds
opponent stone. -/
theorem line_flips_ne_nil (b : Board) (player : String) (r c dr dc : Int)
    (h : _line_flips b player r c dr dc ≠ []) :
    in_bounds (r + dr) (c + dc) = true ∧ b.cell (r + dr) (c + dc) = opponent player := by
  simp only [_line_flips] at h
  by_cases hg : (in_bounds (r + dr) (c + dc) &&
      (b.cell (r + dr) (c + dc) == opponent player)) = true
  · obtain ⟨h1, h2⟩ := Bool.and_eq_true_iff.mp hg
    exact ⟨h1, by simpa using h2⟩
  · rw [if_neg hg] at h
    exact absurd rfl h

/-- A nonempty flip list means the target is an in-bounds empty cell. -/
theorem flips_guard (b : Board) (player : String) (r c : Int)
    (h : flips_for_move b player r c ≠ []) :
    in_bounds r c = true ∧ b.cell r c = EMPTY := by
  unfold flips_for_move at h
  by_cases hg : (in_bounds r c && (b.cell r c == EMPTY)) = true
  · obtain ⟨h1, h2⟩ := Bool.and_eq_true_iff.mp hg
    exact ⟨h1, by simpa using h2⟩
  · rw [if_neg hg] at h
    exact absurd rfl h

/-- Every flipped cell is in bounds, holds the opponent colour, and lies on
the open ray from the move in one of the eight directions. -/
theorem flips_mem (b : Board) (player : String) (r c : Int) (x : Int × Int)
    (hx : x ∈ flips_for_move b player r c) :
    in_bounds x.1 x.2 = true ∧ b.cell x.1 x.2 = opponent player ∧
      ∃ d ∈ DIRS, ∃ k : Int, 1 ≤ k ∧ x = (r + k * d.1, c + k * d.2) := by
  unfold flips_for_move at hx
  by_cases hg : (in_bounds r c && (b.cell r c == EMPTY)) = true
  · rw [if_pos hg] at hx
    simp only [List.mem_flatten, List.mem_map] at hx
    obtain ⟨l, ⟨d, hd, rfl⟩, hxl⟩ := hx
    obtain ⟨hray, hb, hc⟩ := line_flips_mem b player r c d.1 d.2 x hxl
    exact ⟨hb, hc, d, hd, hray⟩
  · rw [if_neg hg] at hx
    simp at hx

/-- Distinct compass directions generate disjoint open rays. -/
theorem dirs_ray_disjoint :
    ∀ d1 ∈ DIRS, ∀ d2 ∈ DIRS, d1 ≠ d2 →
      ∀ k m : Int, 1 ≤ k → 1 ≤ m →
        k * d1.1 = m * d2.1 → k * d1.2 = m * d2.2 → False := by
  intro d1 h1 d2 h2 hne k m hk hm ha hb
  fin_cases h1 <;> fin_cases h2 <;>
    first
      | exact hne rfl
      | (dsimp only at ha hb; omega)

/-- No direction in `DIRS` is the zero vector. -/
theorem dirs_nonzero : ∀ d ∈ DIRS, ¬(d.1 = 0 ∧ d.2 = 0) := by decide

/-- The whole flip list of a move has no duplicates. -/
theorem flips_nodup (b : Board) (player : String) (r c : Int) :
    (flips_for_move b player r c).Nodup := by
  unfold flips_for_move
  by_cases hg : (in_bounds r c && (b.cell r c == EMPTY)) = true
  · rw [if_pos hg, List.nodup_flatten]
    constructor
    · intro l hl
      simp only [List.mem_map] at hl
      obtain ⟨d, hd, rfl⟩ := hl
      exact line_flips_nodup b player r c d.1 d.2 (dirs_nonzero d hd)
    · rw [List.pairwise_map]
      have hpw : DIRS.Pairwise (fun d1 d2 => d1 ≠ d2) := by decide
      refine hpw.imp_of_mem ?_
      intro d1 d2 hd1 hd2 hne x hx1 hx2
      obtain ⟨⟨k, hk, hkx⟩, _, _⟩ := line_flips_mem b player r c d1.1 d1.2 x hx1
      obtain ⟨⟨m, hm, hmx⟩, _, _⟩ := line_flips_mem b player r c d2.1 d2.2 x hx2
      rw [hkx, Prod.mk.injEq] at hmx
      exact dirs_ray_disjoint d1 hd1 d2 hd2 hne k m hk hm
        (by omega) (by omega)
  · rw [if_neg hg]
    exact List.nodup_nil

end Reversi

namespace Reversi

/-- Unfolded form of the bounds check. -/
theorem in_bounds_iff (r c : Int) :
    in_bounds r c = true ↔ 0 ≤ r ∧ r < 8 ∧ 0 ≤ c ∧ c < 8 := by
  simp [in_bounds, and_assoc]

/-- `Board.from_rows` succeeds on well-formed input, returning it wrapped. -/
theorem from_rows_ok_of_WF (rows : List (List String)) (hw : WFgrid rows) :
    Board.from_rows rows = .ok ⟨rows⟩ := by
  obtain ⟨hlen, hrows⟩ := hw
  have hc1 : (rows.length != SIZE || rows.any fun r => r.length != SIZE) = false := by
    simp only [SIZE, Bool.or_eq_false_iff, bne_eq_false_iff_eq, List.any_eq_false]
    exact ⟨hlen, fun r hr => by simpa using (hrows r hr).1⟩
  have hc2 : (rows.any fun rr => rr.any fun cell => !validCell cell) = false := by
    rw [List.any_eq_false]
    intro rr hrr
    rw [Bool.not_eq_true, List.any_eq_false]
    intro cell hcell
    simp [(hrows rr hrr).2 cell hcell]
  simp [Board.from_rows, hc1, hc2]

/-- A successful `Board.from_rows` yields a well-formed board. -/
theorem WF_of_from_rows_ok (rows : List (List String)) (b : Board)
    (h : Board.from_rows rows = .ok b) : Board.WF b := by
  unfold Board.from_rows at h
  by_cases h1 : (rows.length != SIZE || rows.any fun r => r.length != SIZE) = true
  · rw [if_pos h1] at h; cases h
  · rw [if_neg h1] at h
    by_cases h2 : (rows.any fun rr => rr.any fun cell => !validCell cell) = true
    · rw [if_pos h2] at h; cases h
    · rw [if_neg h2] at h
      cases h
      rw [Bool.not_eq_true] at h1 h2
      simp only [SIZE, Bool.or_eq_false_iff, bne_eq_false_iff_eq,
        List.any_eq_false] at h1
      rw [List.any_eq_false] at h2
      refine ⟨h1.1, fun row hrow => ⟨by simpa using h1.2 row hrow, ?_⟩⟩
      intro cell hcell
      have hrow2 := h2 row hrow
      rw [Bool.not_eq_true, List.any_eq_false] at hrow2
      simpa using hrow2 cell hcell

/-- Folding the flip writes over a grid: shape is preserved, the player's
count grows by the number of flips, the opponent's shrinks by it. -/
theorem foldl_update_spec (player opp : String) (hpo : (player == opp) = false)
    (hvp : validCell player = true) :
    ∀ (flips : List (Int × Int)) (g : List (List String)),
      WFgrid g →
      (∀ x ∈ flips, in_bounds x.1 x.2 = true ∧ cellN g x.1.toNat x.2.toNat = opp) →
      flips.Nodup →
      WFgrid (flips.foldl (fun acc rc => updateGrid acc rc.1.toNat rc.2.toNat player) g) ∧
      gridCount (flips.foldl (fun acc rc => updateGrid acc rc.1.toNat rc.2.toNat player) g)
          player = gridCount g player + flips.length ∧
      gridCount (flips.foldl (fun acc rc => updateGrid acc rc.1.toNat rc.2.toNat player) g)
          opp + flips.length = gridCount g opp := by
  intro flips
  induction flips with
  | nil =>
    intro g hw _ _
    refine ⟨hw, by simp, by simp⟩
  | cons x flips ih =>
    intro g hw hall hnd
    obtain ⟨hxb, hxc⟩ := hall x (List.mem_cons_self x flips)
    obtain ⟨hx1, hx2, hx3, hx4⟩ := (in_bounds_iff x.1 x.2).mp hxb
    have hrlt : x.1.toNat < g.length := by
      have hg8 : g.length = 8 := hw.1
      omega
    have hclt : x.2.toNat < (g.getD x.1.toNat []).length := by
      have hr8 : x.1.toNat < 8 := by omega
      have h8 := WFgrid_row_length hw hr8
      omega
    have hw1 : WFgrid (updateGrid g x.1.toNat x.2.toNat player) :=
      WFgrid_updateGrid hw hvp _ _
    have hcnt1 := gridCount_updateGrid g x.1.toNat x.2.toNat player player hrlt hclt
    have hcnt2 := gridCount_updateGrid g x.1.toNat x.2.toNat player opp hrlt hclt
    rw [hxc] at hcnt1 hcnt2
    have hop : (opp == player) = false := by
      rw [beq_eq_false_iff_ne] at hpo ⊢
      exact fun h => hpo h.symm
    rw [hop, beq_self_eq_true, if_neg Bool.false_ne_true, if_pos rfl] at hcnt1
    rw [beq_self_eq_true, hpo, if_pos rfl, if_neg Bool.false_ne_true] at hcnt2
    have htail : ∀ y ∈ flips, in_bounds y.1 y.2 = true ∧
        cellN (updateGrid g x.1.toNat x.2.toNat player) y.1.toNat y.2.toNat = opp := by
      intro y hy
      obtain ⟨hyb, hyc⟩ := hall y (List.mem_cons_of_mem x hy)
      obtain ⟨hy1, hy2, hy3, hy4⟩ := (in_bounds_iff y.1 y.2).mp hyb
      refine ⟨hyb, ?_⟩
      have hxy : ¬(x.1.toNat = y.1.toNat ∧ x.2.toNat = y.2.toNat) := by
        rintro ⟨e1, e2⟩
        have hx_eq_y : x = y := Prod.ext (by omega) (by omega)
        rw [hx_eq_y] at hnd
        exact (List.nodup_cons.mp hnd).1 hy
      rw [cellN_updateGrid_ne g x.1.toNat x.2.toNat y.1.toNat y.2.toNat player hxy]
      exact hyc
    obtain ⟨hwr, hcr1, hcr2⟩ :=
      ih (updateGrid g x.1.toNat x.2.toNat player) hw1 htail (List.nodup_cons.mp hnd).2
    rw [List.foldl_cons]
    refine ⟨hwr, ?_, ?_⟩
    · rw [hcr1]
      simp only [List.length_cons]
      omega
    · rw [List.length_cons]
      omega

end Reversi

namespace Reversi

/-- A legal move on a well-formed board succeeds, yields a well-formed
board, and changes the two stone counts exactly by the flip count. -/
theorem apply_move_ok_spec (b : Board) (player : String) (r c : Int)
    (hw : Board.WF b) (hp : player = BLACK ∨ player = WHITE)
    (hf : flips_for_move b player r c ≠ []) :
    ∃ b2, apply_move b player r c = .ok b2 ∧ Board.WF b2 ∧
      b2.count player = b.count player + (flips_for_move b player r c).length + 1 ∧
      b2.count (opponent player) + (flips_for_move b player r c).length
        = b.count (opponent player) := by
  obtain ⟨hib, hcell⟩ := flips_guard b player r c hf
  obtain ⟨hr0, hr8, hc0, hc8⟩ := (in_bounds_iff r c).mp hib
  have hvp : validCell player = true := by rcases hp with rfl | rfl <;> decide
  have hpo : (player == opponent player) = false := by rcases hp with rfl | rfl <;> decide
  have hpe : (EMPTY == player) = false := by rcases hp with rfl | rfl <;> decide
  have hoe : (EMPTY == opponent player) = false := by rcases hp with rfl | rfl <;> decide
  have hone : opponent player ≠ EMPTY := by rcases hp with rfl | rfl <;> decide
  have hwg : WFgrid b.grid := hw
  have hg8 : b.grid.length = 8 := hwg.1
  have hrlt : r.toNat < b.grid.length := by omega
  have hclt : c.toNat < (b.grid.getD r.toNat []).length := by
    have hr8n : r.toNat < 8 := by omega
    have := WFgrid_row_length hwg hr8n
    omega
  have hw0 : WFgrid (updateGrid b.grid r.toNat c.toNat player) :=
    WFgrid_updateGrid hwg hvp _ _
  have hcellrc : cellN b.grid r.toNat c.toNat = EMPTY := hcell
  have hcnt1 := gridCount_updateGrid b.grid r.toNat c.toNat player player hrlt hclt
  have hcnt2 := gridCount_updateGrid b.grid r.toNat c.toNat player (opponent player)
    hrlt hclt
  rw [hcellrc, hpe, beq_self_eq_true, if_neg Bool.false_ne_true, if_pos rfl] at hcnt1
  rw [hcellrc, hoe, hpo, if_neg Bool.false_ne_true] at hcnt2
  have hflips0 : ∀ x ∈ flips_for_move b player r c, in_bounds x.1 x.2 = true ∧
      cellN (updateGrid b.grid r.toNat c.toNat player) x.1.toNat x.2.toNat
        = opponent player := by
    intro x hx
    obtain ⟨hxb, hxc, _⟩ := flips_mem b player r c x hx
    refine ⟨hxb, ?_⟩
    have hne : ¬(r.toNat = x.1.toNat ∧ c.toNat = x.2.toNat) := by
      rintro ⟨e1, e2⟩
      rw [Board_cell_eq_cellN, ← e1, ← e2, hcellrc] at hxc
      exact hone hxc.symm
    rw [cellN_updateGrid_ne b.grid r.toNat c.toNat x.1.toNat x.2.toNat player hne]
    exact hxc
  obtain ⟨hwf, hcf1, hcf2⟩ := foldl_update_spec player (opponent player) hpo hvp
    (flips_for_move b player r c) (updateGrid b.grid r.toNat c.toNat player)
    hw0 hflips0 (flips_nodup b player r c)
  refine ⟨⟨(flips_for_move b player r c).foldl
      (fun acc rc => updateGrid acc rc.1.toNat rc.2.toNat player)
      (updateGrid b.grid r.toNat c.toNat player)⟩, ?_, ?_, ?_, ?_⟩
  · simp only [apply_move]
    rw [if_neg (fun h => hf (List.isEmpty_iff.mp h))]
    exact from_rows_ok_of_WF _ hwf
  · exact hwf
  · simp only [Board.count]
    omega
  · simp only [Board.count]
    omega

end Reversi

namespace Reversi

/-- Claim C3: applying a legal move increases the mover's stone count by
`|flip_set| + 1` and decreases the opposite colour's count by `|flip_set|`. -/
theorem apply_move_count_spec (b : Board) (player : String) (r c : Int)
    (hw : Board.WF b) (hp : player = BLACK ∨ player = WHITE)
    (hf : flips_for_move b player r c ≠ []) :
    ∃ b2, apply_move b player r c = .ok b2 ∧
      b2.count player = b.count player + (flips_for_move b player r c).length + 1 ∧
      b2.count (opponent player) + (flips_for_move b player r c).length
        = b.count (opponent player) := by
  obtain ⟨b2, h1, _, h3, h4⟩ := apply_move_ok_spec b player r c hw hp hf
  exact ⟨b2, h1, h3, h4⟩

/-- Witness for C3: Black's opening move (2,3) flips exactly (3,3), going
from 2-2 to 4-1. -/
theorem apply_move_count_spec_witness :
    ∃ b2, apply_move Board.initial BLACK 2 3 = .ok b2 ∧
      b2.count BLACK = Board.initial.count BLACK +
        (flips_for_move Board.initial BLACK 2 3).length + 1 ∧
      b2.count (opponent BLACK) + (flips_for_move Board.initial BLACK 2 3).length
        = Board.initial.count (opponent BLACK) :=
  apply_move_count_spec Board.initial BLACK 2 3 (by decide) (Or.inl rfl) (by decide)

/-- Claim C4: an illegal move — including out-of-bounds coordinates and a
non-empty target cell — fails with `IllegalMove`, and with a well-formed
board and valid colour this is the only error `apply_move` can produce.
(The embedding is pure, so a failed call leaves the input board unchanged
by construction.) -/
theorem apply_move_illegal_spec (b : Board) (player : String) (r c : Int) :
    (flips_for_move b player r c = [] →
      apply_move b player r c = .error .illegalMove) ∧
    (in_bounds r c = false → apply_move b player r c = .error .illegalMove) ∧
    (b.cell r c ≠ EMPTY → apply_move b player r c = .error .illegalMove) ∧
    (Board.WF b → (player = BLACK ∨ player = WHITE) →
      apply_move b player r c ≠ .error .valueError) := by
  have herr : flips_for_move b player r c = [] →
      apply_move b player r c = .error .illegalMove := by
    intro h
    simp [apply_move, h]
  refine ⟨herr, ?_, ?_, ?_⟩
  · intro h
    apply herr
    simp [flips_for_move, h]
  · intro h
    apply herr
    have hbe : (b.cell r c == EMPTY) = false := beq_eq_false_iff_ne.mpr h
    simp [flips_for_move, hbe]
  · intro hwf hp hcontra
    by_cases hflip : flips_for_move b player r c = []
    · rw [herr hflip] at hcontra
      simp at hcontra
    · obtain ⟨b2, hok, _⟩ := apply_move_ok_spec b player r c hwf hp hflip
      rw [hok] at hcontra
      simp at hcontra

/-- Witness for C4 at concrete illegal moves on the initial board: a legal
but empty-flip cell, an out-of-bounds coordinate, an occupied target, and
the absence of `ValueError` on a legal move. -/
theorem apply_move_illegal_spec_witness :
    apply_move Board.initial BLACK 0 0 = .error .illegalMove ∧
    apply_move Board.initial BLACK (-1) 5 = .error .illegalMove ∧
    apply_move Board.initial BLACK 3 3 = .error .illegalMove ∧
    apply_move Board.initial BLACK 2 3 ≠ .error .valueError :=
  ⟨(apply_move_illegal_spec Board.initial BLACK 0 0).1 (by decide),
   (apply_move_illegal_spec Board.initial BLACK (-1) 5).2.1 (by decide),
   (apply_move_illegal_spec Board.initial BLACK 3 3).2.2.1 (by decide),
   (apply_move_illegal_spec Board.initial BLACK 2 3).2.2.2 (by decide) (Or.inl rfl)⟩

/-- Claim C10: `Board.initial` and every board produced by `Board.from_rows`
or a successful `apply_move` is a well-formed 8×8 grid whose cells are all
Empty, Black or White (`apply_move` rebuilds through the validating
`Board.from_rows`). -/
theorem board_wellformed_invariant :
    Board.WF Board.initial ∧
    (∀ rows b, Board.from_rows rows = .ok b → Board.WF b) ∧
    (∀ b player r c b2, apply_move b player r c = .ok b2 → Board.WF b2) := by
  refine ⟨by decide, fun rows b h => WF_of_from_rows_ok rows b h, ?_⟩
  intro b player r c b2 h
  simp only [apply_move] at h
  by_cases hflip : (flips_for_move b player r c).isEmpty = true
  · rw [if_pos hflip] at h
    cases h
  · rw [if_neg hflip] at h
    exact WF_of_from_rows_ok _ b2 h

/-- Witness for C10: the initial board, a validated `from_rows`, and the
board after Black's opening move (2,3) are all well-formed. -/
theorem board_wellformed_invariant_witness :
    Board.WF Board.initial ∧
    Board.WF ⟨[[".", ".", ".", ".", ".", ".", ".", "."],
               [".", ".", ".", ".", ".", ".", ".", "."],
               [".", ".", ".", "B", ".", ".", ".", "."],
               [".", ".", ".", "B", "B", ".", ".", "."],
               [".", ".", ".", "B", "W", ".", ".", "."],
               [".", ".", ".", ".", ".", ".", ".", "."],
               [".", ".", ".", ".", ".", ".", ".", "."],
               [".", ".", ".", ".", ".", ".", ".", "."]]⟩ :=
  ⟨board_wellformed_invariant.1,
   board_wellformed_invariant.2.2 Board.initial BLACK 2 3
     ⟨[[".", ".", ".", ".", ".", ".", ".", "."],
       [".", ".", ".", ".", ".", ".", ".", "."],
       [".", ".", ".", "B", ".", ".", ".", "."],
       [".", ".", ".", "B", "B", ".", ".", "."],
       [".", ".", ".", "B", "W", ".", ".", "."],
       [".", ".", ".", ".", ".", ".", ".", "."],
       [".", ".", ".", ".", ".", ".", ".", "."],
       [".", ".", ".", ".", ".", ".", ".", "."]]⟩ (by decide)⟩

end Reversi

namespace Reversi

/-- `coordsAll` covers every in-bounds coordinate. -/
theorem mem_coordsAll (r c : Int) (hr0 : 0 ≤ r) (hr : r < 8) (hc0 : 0 ≤ c)
    (hc : c < 8) : (r, c) ∈ coordsAll := by
  unfold coordsAll SIZE
  rw [List.mem_flatMap]
  refine ⟨r, ?_, ?_⟩
  · rw [List.mem_map]
    refine ⟨r.toNat, ?_, ?_⟩
    · exact List.mem_range.mpr (by omega)
    · simp [Int.toNat_of_nonneg hr0]
  · rw [List.mem_map]
    refine ⟨c, ?_, rfl⟩
    rw [List.mem_map]
    refine ⟨c.toNat, ?_, ?_⟩
    · exact List.mem_range.mpr (by omega)
    · exact Int.toNat_of_nonneg hc0

/-- The reverse of each direction is a direction. -/
theorem neg_mem_DIRS : ∀ d ∈ DIRS, (-d.1, -d.2) ∈ DIRS := by decide

/-- Completeness of the adjacency pruning: every cell with a nonempty flip
list is in the candidate set scanned by `valid_moves`. -/
theorem cand_of_flips (b : Board) (player : String) (r c : Int)
    (hf : flips_for_move b player r c ≠ []) :
    (r, c) ∈ adj_candidates b player := by
  obtain ⟨hib, hcell⟩ := flips_guard b player r c hf
  have hx : ∃ d ∈ DIRS, _line_flips b player r c d.1 d.2 ≠ [] := by
    by_contra hall
    push_neg at hall
    apply hf
    unfold flips_for_move
    rw [if_pos (by simp [hib, hcell])]
    rw [List.flatten_eq_nil_iff]
    intro l hl
    rw [List.mem_map] at hl
    obtain ⟨d, hd, rfl⟩ := hl
    exact hall d hd
  obtain ⟨d, hd, hlf⟩ := hx
  obtain ⟨hnb, hnc⟩ := line_flips_ne_nil b player r c d.1 d.2 hlf
  have hneg : ((-d.1, -d.2) : Int × Int) ∈ DIRS := neg_mem_DIRS d hd
  simp only [adj_candidates, List.mem_dedup, List.mem_flatMap, List.mem_filter,
    List.mem_filterMap]
  refine ⟨(r + d.1, c + d.2), ⟨?_, ?_⟩, (-d.1, -d.2), hneg, ?_⟩
  · obtain ⟨h1, h2, h3, h4⟩ := (in_bounds_iff (r + d.1) (c + d.2)).mp hnb
    exact mem_coordsAll _ _ h1 h2 h3 h4
  · simpa using hnc
  · have e1 : r + d.1 + -d.1 = r := by ring
    have e2 : c + d.2 + -d.2 = c := by ring
    simp only [e1, e2]
    rw [if_pos (by simp [hib, hcell])]

/-- Claim C2: `valid_moves(B, C)` is empty iff no in-range coordinate makes
`apply_move` succeed — the adjacency pruning misses no legal move. -/
theorem valid_moves_empty_iff (b : Board) (player : String)
    (hw : Board.WF b) (hp : player = BLACK ∨ player = WHITE) :
    valid_moves b player = [] ↔
      (∀ r c : Int, 0 ≤ r → r ≤ 7 → 0 ≤ c → c ≤ 7 →
        ∀ b2, apply_move b player r c ≠ .ok b2) := by
  constructor
  · intro hvm r c hr0 hr7 hc0 hc7 b2 happ
    have hflip : flips_for_move b player r c ≠ [] := by
      intro hnil
      rw [(apply_move_illegal_spec b player r c).1 hnil] at happ
      cases happ
    have hcand := cand_of_flips b player r c hflip
    have hmem : (r, c) ∈ valid_moves b player := by
      unfold valid_moves
      rw [List.mem_mergeSort]
      refine List.mem_filter.mpr ⟨hcand, ?_⟩
      simp only [Bool.not_eq_eq_eq_not, Bool.not_true]
      exact Bool.eq_false_iff.mpr (fun h => hflip (List.isEmpty_iff.mp h))
    rw [hvm] at hmem
    cases hmem
  · intro hall
    by_contra hvm
    obtain ⟨x, hx⟩ := List.exists_mem_of_ne_nil _ hvm
    unfold valid_moves at hx
    rw [List.mem_mergeSort] at hx
    obtain ⟨hcand, hflipb⟩ := List.mem_filter.mp hx
    have hflip : flips_for_move b player x.1 x.2 ≠ [] := by
      intro h
      rw [h] at hflipb
      simp at hflipb
    have hib : in_bounds x.1 x.2 = true := by
      simp only [adj_candidates, List.mem_dedup, List.mem_flatMap, List.mem_filter,
        List.mem_filterMap] at hcand
      obtain ⟨y, hy, d, hd, hif⟩ := hcand
      by_cases hg : (in_bounds (y.1 + d.1) (y.2 + d.2) &&
          (b.cell (y.1 + d.1) (y.2 + d.2) == EMPTY)) = true
      · rw [if_pos hg] at hif
        injection hif with hif
        rw [← hif]
        exact (Bool.and_eq_true_iff.mp hg).1
      · rw [if_neg hg] at hif
        cases hif
    obtain ⟨hx0, hx8, hy0, hy8⟩ := (in_bounds_iff x.1 x.2).mp hib
    obtain ⟨b2, hok, _⟩ := apply_move_ok_spec b player x.1 x.2 hw hp hflip
    exact hall x.1 x.2 (by omega) (by omega) (by omega) (by omega) b2 hok

/-- Witness for C2: the characterisation instantiated at the initial board
for Black. -/
theorem valid_moves_empty_iff_witness :
    valid_moves Board.initial BLACK = [] ↔
      (∀ r c : Int, 0 ≤ r → r ≤ 7 → 0 ≤ c → c ≤ 7 →
        ∀ b2, apply_move Board.initial BLACK r c ≠ .ok b2) :=
  valid_moves_empty_iff Board.initial BLACK (by decide) (Or.inl rfl)

end Reversi
